import Mathlib

/-
Verification development for the Hybrid Retrieval Engine of the
glaciereq-memory-master repository (src/api/routers/rag.py).

The Python module implements `GraphRAG` with three operations:
`semantic_search`, `graph_search` and `hybrid_search`, plus FastAPI
router endpoints.  We embed the data flow shallowly:

* backend records (Python dicts) become the `Record` structure with
  `Option` fields for keys that may be absent (`dict.get`);
* Python floats become `ℚ` (the scoring formulas are exact decimal
  constants: 0.6 = 3/5, 0.4 = 2/5, 0.3 = 3/10, 0.2 = 1/5, 0.1 = 1/10);
* the insertion-ordered `result_map` dict keyed by `hash(content)`
  becomes an association list over an abstract hash `hh : String → ℤ`
  (Python string hashing is process-seeded, so the hash function is an
  environment input of the algorithm, not a fixed constant);
* Python's stable `sorted(..., reverse=True)` becomes the stable
  descending insertion sort `sortDesc` (stable sorts are extensionally
  unique, so any stable model is faithful);
* the two adapter coroutines awaited by `hybrid_search` become function
  parameters, and the engine additionally returns the list of backend
  calls it issued, so that claims about which calls happen are statable.
-/

namespace GraphRag

/-- A backend record: the shallow embedding of the loosely-typed Python
dicts flowing through `rag.py`.  Fields that a dict may lack are
`Option`; `content` is the text used for deduplication
(`result.get('content', '')` — records always carrying a content string
in this model). -/
structure Record where
  content : String
  semantic_score : Option ℚ
  graph_score : Option ℚ
  path_length : Option ℕ
  custody_events : Option ℕ
  search_type : Option String
  hybrid_score : Option ℚ
deriving DecidableEq

/-- The `signals` sub-dict attached by the merge step of
`GraphRAG.hybrid_search`. -/
structure Signals where
  semantic : Option ℚ
  graph : Option ℚ
deriving DecidableEq

/-- A value of the `result_map` dict built by `hybrid_search`: the
spread backend record with a (mandatory, recomputed) `hybrid_score`
and a `signals` breakdown. -/
structure Entry where
  content : String
  semantic_score : Option ℚ
  graph_score : Option ℚ
  path_length : Option ℕ
  custody_events : Option ℕ
  search_type : Option String
  hybrid_score : ℚ
  signals : Signals
deriving DecidableEq

/-- One backend invocation issued by the engine, recorded in dispatch
order: the semantic adapter call, the graph adapter call, and the
provenance-trail query. -/
inductive Call where
  | semantic (query : String) (limit : ℤ)
  | graph (query : String) (entity : Option String) (depth : ℤ)
  | provenance (entity : String)
deriving DecidableEq

/-- Python truthiness of the optional `entity` string
(`if include_provenance and entity:` at rag.py:169). -/
def strOptTruthy : Option String → Bool
  | none => false
  | some s => !(s == "")

/-- Python list slice `l[:n]` for an `int` bound `n`: a nonnegative
bound takes the first `n` elements; a negative bound drops the last
`|n|` elements. -/
def pySlice (l : List α) (n : ℤ) : List α :=
  if 0 ≤ n then l.take n.toNat else l.take (l.length - (-n).toNat)

/-- The dedup key of a record: `hash(result.get('content', ''))`
(rag.py:133/143), with `hh` the process string hash. -/
def recKey (hh : String → ℤ) (r : Record) : ℤ :=
  hh r.content

/-- Map-entry built from a semantic result (rag.py:135-139):
`{**result, 'hybrid_score': semantic_score*0.6,
'signals': {'semantic': semantic_score}}` with default 0.5 when the
score key is absent. -/
def semEntry (r : Record) : Entry :=
  { content := r.content
    semantic_score := r.semantic_score
    graph_score := r.graph_score
    path_length := r.path_length
    custody_events := r.custody_events
    search_type := r.search_type
    hybrid_score := r.semantic_score.getD (1/2) * (3/5)
    signals := { semantic := some (r.semantic_score.getD (1/2)), graph := none } }

/-- Map-entry built from a graph result with no existing key
(rag.py:154-158): `{**result, 'hybrid_score': graph_boost + 0.3,
'signals': {'graph': graph_score}}`. -/
def graphOnlyEntry (r : Record) : Entry :=
  { content := r.content
    semantic_score := r.semantic_score
    graph_score := r.graph_score
    path_length := r.path_length
    custody_events := r.custody_events
    search_type := r.search_type
    hybrid_score := r.graph_score.getD (1/2) * (2/5) + 3/10
    signals := { semantic := none, graph := some (r.graph_score.getD (1/2)) } }

/-- In-place update of an existing map entry by a graph result
(rag.py:148-151): add `graph_score*0.4` to the hybrid score, record the
graph signal, and copy over `path_length` (no default) and
`custody_events` (default 0). -/
def graphMergeUpd (r : Record) (e : Entry) : Entry :=
  { e with
    hybrid_score := e.hybrid_score + r.graph_score.getD (1/2) * (2/5)
    signals := { e.signals with graph := some (r.graph_score.getD (1/2)) }
    path_length := r.path_length
    custody_events := some (r.custody_events.getD 0) }

/-- Lookup in the insertion-ordered association list modelling the
Python dict `result_map`. -/
def alLookup (k : ℤ) : List (ℤ × Entry) → Option Entry
  | [] => none
  | p :: rest => if p.1 = k then some p.2 else alLookup k rest

/-- Replace the value stored at key `k` (dict item assignment keeps the
key's insertion position). -/
def alUpdate (k : ℤ) (f : Entry → Entry) : List (ℤ × Entry) → List (ℤ × Entry)
  | [] => []
  | p :: rest => if p.1 = k then (p.1, f p.2) :: rest else p :: alUpdate k f rest

/-- One iteration of the semantic loop (rag.py:132-139): insert a fresh
entry only when the content hash is not yet a key. -/
def stepSem (hh : String → ℤ) (m : List (ℤ × Entry)) (r : Record) : List (ℤ × Entry) :=
  if (alLookup (recKey hh r) m).isSome then m
  else m ++ [(recKey hh r, semEntry r)]

/-- One iteration of the graph loop (rag.py:142-158): boost an existing
entry in place, or append a graph-only entry. -/
def stepGraph (hh : String → ℤ) (m : List (ℤ × Entry)) (r : Record) : List (ℤ × Entry) :=
  if (alLookup (recKey hh r) m).isSome then alUpdate (recKey hh r) (graphMergeUpd r) m
  else m ++ [(recKey hh r, graphOnlyEntry r)]

/-- The semantic pass over `semantic_results`, folded from an initial
map. -/
def processSemFrom (hh : String → ℤ) (m : List (ℤ × Entry)) (rs : List Record) :
    List (ℤ × Entry) :=
  rs.foldl (stepSem hh) m

/-- The graph pass over `graph_results`, folded from the map produced
by the semantic pass. -/
def processGraphFrom (hh : String → ℤ) (m : List (ℤ × Entry)) (rs : List Record) :
    List (ℤ × Entry) :=
  rs.foldl (stepGraph hh) m

/-- The fully merged `result_map` of `hybrid_search` (rag.py:128-158). -/
def resultMap (hh : String → ℤ) (sems graphs : List Record) : List (ℤ × Entry) :=
  processGraphFrom hh (processSemFrom hh [] sems) graphs

/-- The sequence `result_map.values()` in dict insertion order. -/
def mergedValues (hh : String → ℤ) (sems graphs : List Record) : List Entry :=
  (resultMap hh sems graphs).map Prod.snd

/-- Stable descending insert: place `x` before the first element whose
hybrid score is ≤ its own, so earlier-inserted equal-score elements
stay in front. -/
def insertD (x : Entry) : List Entry → List Entry
  | [] => [x]
  | y :: ys => if y.hybrid_score ≤ x.hybrid_score then x :: y :: ys else y :: insertD x ys

/-- Stable sort descending by `hybrid_score`: the model of Python's
stable `sorted(values, key=lambda x: x.get('hybrid_score', 0),
reverse=True)` (rag.py:161-165). -/
def sortDesc (l : List Entry) : List Entry :=
  l.foldr insertD []

/-- The ranked, truncated result list of `hybrid_search`
(rag.py:160-165): stable-sort the map values descending and slice to
`[:limit]`. -/
def hybridResults (hh : String → ℤ) (sems graphs : List Record) (limit : ℤ) : List Entry :=
  pySlice (sortDesc (mergedValues hh sems graphs)) limit

/-- The response envelope assembled at rag.py:175-189 (`semantic_weight`
and `graph_weight` are the literal constants 0.6 and 0.4). -/
structure HybridOut where
  results : List Entry
  provenance : List String
  semantic_weight : ℚ
  graph_weight : ℚ
  avg_confidence : ℚ
  execution_time : ℚ
  count_semantic : ℕ
  count_graph : ℕ
  count_hybrid : ℕ
deriving DecidableEq

/-- The engine `GraphRAG.hybrid_search` (rag.py:116-189) as a function of the
process hash `hh`, the two adapters `semA`/`graphA`, the provenance
backend `provA`, the call arguments, and the measured wall-clock
duration `t`.  Besides the envelope it returns the list of backend
calls issued, in dispatch order.  Note the literal depth `3` handed to
the graph adapter (rag.py:122) and the absence of any `limit`
validation. -/
def hybridSearchRun (hh : String → ℤ) (semA : String → ℤ → List Record)
    (graphA : String → Option String → ℤ → List Record)
    (provA : String → List String) (query : String) (entity : Option String)
    (limit : ℤ) (include_provenance : Bool) (t : ℚ) : HybridOut × List Call :=
  let semantic_results := semA query (limit * 2)
  let graph_results := graphA query entity 3
  let sorted_results := hybridResults hh semantic_results graph_results limit
  let doProv := include_provenance && strOptTruthy entity
  let provenance := if doProv then provA (entity.getD "") else []
  let calls := [Call.semantic query (limit * 2), Call.graph query entity 3]
      ++ (if doProv then [Call.provenance (entity.getD "")] else [])
  let avg := if sorted_results = [] then 0
      else (sorted_results.map (fun e => e.hybrid_score)).sum / sorted_results.length
  ({ results := sorted_results
     provenance := provenance
     semantic_weight := 3/5
     graph_weight := 2/5
     avg_confidence := avg
     execution_time := t
     count_semantic := semantic_results.length
     count_graph := graph_results.length
     count_hybrid := sorted_results.length }, calls)

/-- The request body of the router endpoints (rag.py:23-29), with the
pydantic defaults already applied (`limit=10`, `include_provenance=True`,
`confidence_threshold=0.7`, `max_graph_depth=3`). -/
structure RAGQuery where
  query : String
  entity : Option String
  limit : ℤ
  include_provenance : Bool
  confidence_threshold : ℚ
  max_graph_depth : ℤ
deriving DecidableEq

/-- The `/rag/hybrid` endpoint (rag.py:239-249): it forwards `query`,
`entity`, `limit` and `include_provenance` to `GraphRAG.hybrid_search`
— and does not forward `max_graph_depth`. -/
def routerHybridSearch (hh : String → ℤ) (semA : String → ℤ → List Record)
    (graphA : String → Option String → ℤ → List Record)
    (provA : String → List String) (q : RAGQuery) (t : ℚ) : HybridOut × List Call :=
  hybridSearchRun hh semA graphA provA q.query q.entity q.limit q.include_provenance t

/-- Discriminator for graph-adapter calls in a call log. -/
def isGraphCall : Call → Bool
  | Call.graph _ _ _ => true
  | _ => false

/-- The scoring loop of `GraphRAG.semantic_search` (rag.py:54-56):
`result['semantic_score'] = 1.0 - (i * 0.1)` for the `i`-th record of
the combined sequence, and `result['search_type'] = 'semantic'`.
There is no lower clamp. -/
def addScores : ℕ → List Record → List Record
  | _, [] => []
  | i, r :: rs =>
    { r with semantic_score := some (1 - (i : ℚ) * (1/10)), search_type := some "semantic" }
      :: addScores (i + 1) rs

/-- The adapter `GraphRAG.semantic_search` (rag.py:43-58) over provider functions
`sm` (SuperMemory) and `m0` (Mem0): primary call, shortfall fallback,
then rank-based scoring of the combined sequence. -/
def semantic_search (sm m0 : String → ℤ → List Record) (query : String) (limit : ℤ) :
    List Record :=
  let results := sm query limit
  let combined :=
    if (results.length : ℤ) < limit then results ++ m0 query (limit - results.length)
    else results
  addScores 0 combined

/-- One row of the Neo4j response consumed by `graph_search`
(rag.py:96-99): the memory node `m`, the optional `path_length` column,
and the number of collected custody nodes (`collect(c)`; only its
emptiness and length are used by the code). -/
structure GraphRow where
  m : Record
  path_length : Option ℕ
  custody : ℕ
deriving DecidableEq

/-- The row-processing body of `GraphRAG.graph_search` (rag.py:96-112):
default the missing path length to 1, score `1/(path_length+1)` with a
`+0.2` custody bonus, and spread the memory node under the added
keys. -/
def graphRowToRec (row : GraphRow) : Record :=
  let pl := row.path_length.getD 1
  let graph_score : ℚ := 1 / ((pl : ℚ) + 1) + (if row.custody ≠ 0 then 1/5 else 0)
  { row.m with
    graph_score := some graph_score
    path_length := some pl
    custody_events := some row.custody
    search_type := some "graph" }

/-- The adapter `GraphRAG.graph_search` (rag.py:60-114) given the driver
availability flag and the backend response rows (the entity and depth
arguments only shape the Cypher text sent to the backend, which is
modelled by the `rows` input; the no-entity query returns no
`path_length` column, so those rows carry `path_length = none`). -/
def graph_search (driverUp : Bool) (entity : Option String) (depth : ℤ)
    (rows : List GraphRow) : List Record :=
  if driverUp then rows.map graphRowToRec else []

/-- Erase the stray `hybrid_score` key a backend record might carry. -/
def clearHyb (r : Record) : Record :=
  { r with hybrid_score := none }

/-- A bare record with only content set: the shape of a provider hit
before any scoring pass, used in concrete evaluations. -/
def mkRec (s : String) : Record :=
  { content := s
    semantic_score := none
    graph_score := none
    path_length := none
    custody_events := none
    search_type := none
    hybrid_score := none }

/-- A SuperMemory stub returning twelve hits, enough to drive the
rank-based score below zero. -/
def smTwelve : String → ℤ → List Record :=
  fun _ _ => (List.range 12).map (fun i => mkRec (String.append "r" (toString i)))

/-- A provider stub returning nothing. -/
def noRecs : String → ℤ → List Record :=
  fun _ _ => []

/-- A graph adapter stub returning nothing. -/
def noGraphRecs : String → Option String → ℤ → List Record :=
  fun _ _ _ => []

/-- A provenance backend stub returning nothing. -/
def noProv : String → List String :=
  fun _ => []

/-- A witness hash separating the two contents used in concrete
instantiations. -/
def hashAB : String → ℤ :=
  fun s => if s = "A" then 0 else 1

/-- A degenerate process hash on which every content collides. -/
def hashConst : String → ℤ :=
  fun _ => 0

/-- A concrete graph row with an explicit path length and one custody
event. -/
def rowW : GraphRow :=
  { m := mkRec "A", path_length := some 2, custody := 1 }

/-- A concrete graph row with no path-length column (the shape of the
no-entity Cypher response) and no custody events. -/
def rowN : GraphRow :=
  { m := mkRec "B", path_length := none, custody := 0 }

/-- A one-record semantic result list for concrete instantiations. -/
def semsW : List Record :=
  [{ content := "A"
     semantic_score := some 1
     graph_score := none
     path_length := none
     custody_events := none
     search_type := some "semantic"
     hybrid_score := none }]

/-- A one-record graph result list (distinct content) for concrete
instantiations. -/
def graphsW : List Record :=
  [{ content := "B"
     semantic_score := none
     graph_score := some (1/2)
     path_length := some 1
     custody_events := some 0
     search_type := some "graph"
     hybrid_score := none }]

section Lemmas

variable (hh : String → ℤ)

/-- Erasing the stray `hybrid_score` key leaves the semantic step
unchanged: the step never reads it. -/
theorem stepSem_clearHyb (m : List (ℤ × Entry)) (r : Record) :
    stepSem hh m (clearHyb r) = stepSem hh m r :=
  rfl

/-- Erasing the stray `hybrid_score` key leaves the graph step
unchanged. -/
theorem stepGraph_clearHyb (m : List (ℤ × Entry)) (r : Record) :
    stepGraph hh m (clearHyb r) = stepGraph hh m r :=
  rfl

theorem processSemFrom_clearHyb (rs : List Record) :
    ∀ m, processSemFrom hh m (rs.map clearHyb) = processSemFrom hh m rs := by
  induction rs with
  | nil => intro m; rfl
  | cons r rs ih =>
    intro m
    simp only [List.map_cons, processSemFrom, List.foldl_cons] at *
    rw [stepSem_clearHyb]
    exact ih (stepSem hh m r)

theorem processGraphFrom_clearHyb (rs : List Record) :
    ∀ m, processGraphFrom hh m (rs.map clearHyb) = processGraphFrom hh m rs := by
  induction rs with
  | nil => intro m; rfl
  | cons r rs ih =>
    intro m
    simp only [List.map_cons, processGraphFrom, List.foldl_cons] at *
    rw [stepGraph_clearHyb]
    exact ih (stepGraph hh m r)

/-- The scoring loop preserves the list length. -/
theorem addScores_length : ∀ (n : ℕ) (l : List Record),
    (addScores n l).length = l.length
  | _, [] => rfl
  | n, _ :: rs => by simp [addScores, addScores_length (n + 1) rs]

/-- The `i`-th record scored from base index `n` carries score
`1 - (n + i) / 10`. -/
theorem addScores_get? : ∀ (l : List Record) (n i : ℕ),
    ((addScores n l).get? i).map (fun r => r.semantic_score)
      = (l.get? i).map (fun _ => some (1 - ((n + i : ℕ) : ℚ) * (1/10)))
  | [], n, i => by simp [addScores]
  | r :: rs, n, 0 => by simp [addScores]
  | r :: rs, n, i + 1 => by
    have h := addScores_get? rs (n + 1) i
    simp only [addScores, List.get?_cons_succ]
    rw [h]
    norm_num [Nat.add_assoc, Nat.add_comm 1 i]

end Lemmas

/-- C9: `hybridSearch` is deterministic — the embedding is a pure
function of the query arguments and the backend adapters, so two calls
with identical inputs (even at different wall-clock instants) produce
the same ordered result list, the same confidence aggregate and the
same backend call sequence; no hidden randomness or cross-call state
exists in the merge path. -/
theorem c9_deterministic (hh : String → ℤ) (semA : String → ℤ → List Record)
    (graphA : String → Option String → ℤ → List Record) (provA : String → List String)
    (q : String) (e : Option String) (l : ℤ) (p : Bool) (t1 t2 : ℚ) :
    (hybridSearchRun hh semA graphA provA q e l p t1).fst.results
      = (hybridSearchRun hh semA graphA provA q e l p t2).fst.results
    ∧ (hybridSearchRun hh semA graphA provA q e l p t1).fst.avg_confidence
      = (hybridSearchRun hh semA graphA provA q e l p t2).fst.avg_confidence
    ∧ (hybridSearchRun hh semA graphA provA q e l p t1).snd
      = (hybridSearchRun hh semA graphA provA q e l p t2).snd :=
  ⟨rfl, rfl, rfl⟩

/-- C8: the hybrid score of every merged entry is recomputed by the
merge engine; a `hybrid_score` field already present on a backend
record is never read, so erasing it from every input record leaves the
ranked output unchanged. -/
theorem c8_hybrid_recomputed (hh : String → ℤ) (sems graphs : List Record) (limit : ℤ) :
    hybridResults hh (sems.map clearHyb) (graphs.map clearHyb) limit
      = hybridResults hh sems graphs limit := by
  unfold hybridResults mergedValues resultMap
  rw [processSemFrom_clearHyb, processGraphFrom_clearHyb]

/-- C5 counterexample: a request with `max_graph_depth = 5` still makes
the engine call the graph adapter with depth 3, and no depth-5 call is
ever issued — the caller-supplied depth is not forwarded by the hybrid
path. -/
theorem c5_cex :
    (routerHybridSearch hashAB noRecs noGraphRecs noProv
        { query := "q", entity := none, limit := 10, include_provenance := false,
          confidence_threshold := 7/10, max_graph_depth := 5 } 0).snd
      = [Call.semantic "q" 20, Call.graph "q" none 3]
    ∧ Call.graph "q" none 5 ∉
      (routerHybridSearch hashAB noRecs noGraphRecs noProv
        { query := "q", entity := none, limit := 10, include_provenance := false,
          confidence_threshold := 7/10, max_graph_depth := 5 } 0).snd := by
  constructor
  · rfl
  · decide

/-- C5 (amended): the hybrid path always invokes the graph adapter with
the fixed depth 3 — the router endpoint does not forward
`max_graph_depth` to `GraphRAG.hybrid_search`, which hardcodes 3 — so
the single graph call in any hybrid request's call log carries depth 3
regardless of the query's `max_graph_depth`. -/
theorem c5_amended (hh : String → ℤ) (semA : String → ℤ → List Record)
    (graphA : String → Option String → ℤ → List Record) (provA : String → List String)
    (q : RAGQuery) (t : ℚ) :
    ((routerHybridSearch hh semA graphA provA q t).snd).filter isGraphCall
      = [Call.graph q.query q.entity 3] := by
  cases h : q.include_provenance && strOptTruthy q.entity <;>
    simp [routerHybridSearch, hybridSearchRun, h, isGraphCall]

/-- C3 counterexample: a query with `limit = 0` is not rejected — the
engine still issues two backend calls (one semantic, one graph). -/
theorem c3_cex :
    (hybridSearchRun hashAB noRecs noGraphRecs noProv "q" none 0 false 0).snd ≠ []
    ∧ (hybridSearchRun hashAB noRecs noGraphRecs noProv "q" none 0 false 0).snd.length = 2 := by
  constructor
  · decide
  · rfl

/-- C3 (amended): `hybrid_search` performs no limit validation: for
every `limit ≤ 0` it still dispatches the semantic adapter (asking for
`2·limit` records) and the graph adapter (depth 3) exactly as for a
positive limit, and when `limit = 0` the final slice `[:0]` makes the
returned result list empty. -/
theorem c3_amended (hh : String → ℤ) (semA : String → ℤ → List Record)
    (graphA : String → Option String → ℤ → List Record) (provA : String → List String)
    (q : String) (e : Option String) (p : Bool) (t : ℚ) (l : ℤ) (hl : l ≤ 0) :
    (hybridSearchRun hh semA graphA provA q e l p t).snd
      = [Call.semantic q (l * 2), Call.graph q e 3]
        ++ (if p && strOptTruthy e then [Call.provenance (e.getD "")] else [])
    ∧ (l = 0 → (hybridSearchRun hh semA graphA provA q e l p t).fst.results = []) := by
  constructor
  · rfl
  · intro h0
    subst h0
    simp [hybridSearchRun, hybridResults, pySlice]

/-- Witness for C3 (amended) at `limit = 0`. -/
theorem c3_amended_w :
    (0 : ℤ) ≤ 0
    ∧ ((hybridSearchRun hashAB noRecs noGraphRecs noProv "q" none 0 false 0).snd
        = [Call.semantic "q" (0 * 2), Call.graph "q" none 3]
          ++ (if false && strOptTruthy none then
                [Call.provenance ((none : Option String).getD "")] else [])
      ∧ ((0 : ℤ) = 0 →
          (hybridSearchRun hashAB noRecs noGraphRecs noProv "q" none 0 false 0).fst.results
            = [])) :=
  ⟨by decide, c3_amended hashAB noRecs noGraphRecs noProv "q" none false 0 0 (by decide)⟩

/-- C4 counterexample: with twelve provider hits, the record at index
11 of the combined sequence receives semantic score `1 - 11·0.1 =
-0.1`, a negative value, whereas the claimed formula
`max(0, 1 - 11·0.1)` is `0` — the code has no floor at zero. -/
theorem c4_cex :
    ((semantic_search smTwelve noRecs "q" 10).get? 11).map (fun r => r.semantic_score)
      = some (some (-(1/10) : ℚ))
    ∧ (-(1/10) : ℚ) < 0
    ∧ max (0 : ℚ) (1 - (11 : ℚ) * (1/10)) = 0 := by
  have hc : semantic_search smTwelve noRecs "q" 10 = addScores 0 (smTwelve "q" 10) := by
    unfold semantic_search
    norm_num [smTwelve]
  refine ⟨?_, by norm_num, by norm_num⟩
  rw [hc, addScores_get?]
  have hget : (smTwelve "q" 10).get? 11 = some (mkRec "r11") := rfl
  rw [hget]
  simp only [Option.map_some']
  norm_num

/-- C4 (amended): the `i`-th record (0-indexed) of the combined
semantic sequence receives score exactly `1 - i·0.1`, with no floor:
the value is negative for every `i ≥ 11`. -/
theorem c4_amended (sm m0 : String → ℤ → List Record) (query : String) (limit : ℤ)
    (i : ℕ) (h : i < (semantic_search sm m0 query limit).length) :
    ((semantic_search sm m0 query limit).get? i).map (fun r => r.semantic_score)
      = some (some (1 - (i : ℚ) * (1/10))) := by
  unfold semantic_search at *
  rw [addScores_get?]
  rw [addScores_length] at h
  rcases List.get?_eq_get h with hg
  rw [hg]
  simp

/-- Witness for C4 (amended) at index 0 of a one-hit provider. -/
theorem c4_amended_w :
    0 < (semantic_search smTwelve noRecs "q" 10).length
    ∧ ((semantic_search smTwelve noRecs "q" 10).get? 0).map (fun r => r.semantic_score)
        = some (some (1 - (0 : ℚ) * (1/10))) :=
  ⟨by decide, c4_amended smTwelve noRecs "q" 10 0 (by decide)⟩

/-- C7: every record produced by `graph_search` carries
`graph_score = 1/(path_length+1)` plus a flat `0.2` bonus exactly when
it has at least one custody event, where `path_length` and
`custody_events` are the values the record itself reports. -/
theorem c7_graph_score (driverUp : Bool) (entity : Option String) (depth : ℤ)
    (rows : List GraphRow) (r : Record)
    (h : r ∈ graph_search driverUp entity depth rows) :
    ∃ pl cnt, r.path_length = some pl ∧ r.custody_events = some cnt ∧
      r.graph_score = some ((1 : ℚ) / ((pl : ℚ) + 1) + (if cnt ≠ 0 then 1/5 else 0)) := by
  cases driverUp with
  | false => simp [graph_search] at h
  | true =>
    simp only [graph_search, if_pos, List.mem_map] at h
    obtain ⟨row, _, rfl⟩ := h
    exact ⟨row.path_length.getD 1, row.custody, rfl, rfl, rfl⟩

/-- Witness for C7 on a concrete row with path length 2 and one custody
event. -/
theorem c7_graph_score_w :
    graphRowToRec rowW ∈ graph_search true none 3 [rowW]
    ∧ ∃ pl cnt, (graphRowToRec rowW).path_length = some pl
        ∧ (graphRowToRec rowW).custody_events = some cnt
        ∧ (graphRowToRec rowW).graph_score
            = some ((1 : ℚ) / ((pl : ℚ) + 1) + (if cnt ≠ 0 then 1/5 else 0)) :=
  ⟨by simp [graph_search], c7_graph_score true none 3 [rowW] (graphRowToRec rowW)
    (by simp [graph_search])⟩

/-- C10: a backend row carrying no `path_length` value is processed
with the default path length 1, so the produced record reports
`path_length = 1` and scores `1/(1+1) = 0.5` plus the custody bonus
when applicable — also in the entity-less global scan, whose Cypher
query returns no `path_length` column at all. -/
theorem c10_default_path (rows : List GraphRow) (row : GraphRow)
    (h1 : row ∈ rows) (h2 : row.path_length = none) :
    graphRowToRec row ∈ graph_search true none 3 rows
    ∧ (graphRowToRec row).path_length = some 1
    ∧ (graphRowToRec row).graph_score
        = some ((1 : ℚ) / 2 + (if row.custody ≠ 0 then 1/5 else 0)) := by
  refine ⟨?_, ?_, ?_⟩
  · simp only [graph_search, if_pos, List.mem_map]
    exact ⟨row, h1, rfl⟩
  · simp [graphRowToRec, h2]
  · simp only [graphRowToRec, h2, Option.getD_none]
    norm_num

section AssocLemmas

variable (hh : String → ℤ)

theorem alLookup_eq_none_iff (k : ℤ) (m : List (ℤ × Entry)) :
    alLookup k m = none ↔ k ∉ m.map Prod.fst := by
  induction m with
  | nil => simp [alLookup]
  | cons p rest ih =>
    by_cases h : p.1 = k
    · simp [alLookup, h]
    · simp [alLookup, h, ih, Ne.symm h]

theorem alLookup_isSome_iff (k : ℤ) (m : List (ℤ × Entry)) :
    (alLookup k m).isSome = true ↔ k ∈ m.map Prod.fst := by
  rw [Option.isSome_iff_ne_none, Ne, alLookup_eq_none_iff, not_not]

theorem alLookup_append_some {k : ℤ} {m1 m2 : List (ℤ × Entry)} {e : Entry}
    (h : alLookup k m1 = some e) : alLookup k (m1 ++ m2) = some e := by
  induction m1 with
  | nil => simp [alLookup] at h
  | cons p rest ih =>
    by_cases hp : p.1 = k
    · simp_all [alLookup]
    · simp_all [alLookup]

theorem alLookup_append_none {k : ℤ} {m1 m2 : List (ℤ × Entry)}
    (h : alLookup k m1 = none) : alLookup k (m1 ++ m2) = alLookup k m2 := by
  induction m1 with
  | nil => rfl
  | cons p rest ih =>
    by_cases hp : p.1 = k
    · simp_all [alLookup]
    · simp_all [alLookup]

theorem alLookup_update (k k2 : ℤ) (f : Entry → Entry) (m : List (ℤ × Entry)) :
    alLookup k (alUpdate k2 f m) = if k2 = k then (alLookup k m).map f else alLookup k m := by
  induction m with
  | nil => by_cases h : k2 = k <;> simp [alUpdate, alLookup, h]
  | cons p rest ih =>
    by_cases h1 : p.1 = k2
    · by_cases h2 : p.1 = k
      · have hk : k2 = k := h1 ▸ h2
        simp [alUpdate, alLookup, h1, h2, hk]
      · have hk : ¬ k2 = k := fun hc => h2 (h1 ▸ hc.symm ▸ rfl)
        simp [alUpdate, alLookup, h1, h2, hk]
    · by_cases h2 : p.1 = k
      · have hk : ¬ k2 = k := fun hc => h1 (h2 ▸ hc ▸ rfl)
        have h1' : ¬ k = k2 := by rw [← h2]; exact h1
        simp [alUpdate, alLookup, h1, h2, hk, h1']
      · simp [alUpdate, alLookup, h1, h2, ih]

theorem keys_alUpdate (k2 : ℤ) (f : Entry → Entry) (m : List (ℤ × Entry)) :
    (alUpdate k2 f m).map Prod.fst = m.map Prod.fst := by
  induction m with
  | nil => rfl
  | cons p rest ih =>
    by_cases h : p.1 = k2 <;> simp [alUpdate, h, ih]

theorem lookup_stepSem_other {k : ℤ} {r : Record} (hk : recKey hh r ≠ k)
    (m : List (ℤ × Entry)) : alLookup k (stepSem hh m r) = alLookup k m := by
  unfold stepSem
  by_cases hs : (alLookup (recKey hh r) m).isSome
  · simp [hs]
  · simp only [hs, Bool.false_eq_true, if_false]
    cases he : alLookup k m with
    | none => rw [alLookup_append_none he]; simp [alLookup, hk]
    | some e => exact alLookup_append_some he

theorem lookup_stepSem_some {k : ℤ} {r : Record} {m : List (ℤ × Entry)} {e : Entry}
    (he : alLookup k m = some e) : alLookup k (stepSem hh m r) = some e := by
  unfold stepSem
  by_cases hs : (alLookup (recKey hh r) m).isSome
  · simp [hs, he]
  · simp only [hs, Bool.false_eq_true, if_false]
    exact alLookup_append_some he

theorem lookup_stepSem_hit_none {k : ℤ} {r : Record} {m : List (ℤ × Entry)}
    (hk : recKey hh r = k) (he : alLookup k m = none) :
    alLookup k (stepSem hh m r) = some (semEntry r) := by
  unfold stepSem
  have hs : (alLookup (recKey hh r) m).isSome = false := by
    rw [hk, he]; rfl
  simp only [hs, Bool.false_eq_true, if_false]
  rw [alLookup_append_none he]
  simp [alLookup, hk]

theorem lookup_stepGraph_other {k : ℤ} {r : Record} (hk : recKey hh r ≠ k)
    (m : List (ℤ × Entry)) : alLookup k (stepGraph hh m r) = alLookup k m := by
  unfold stepGraph
  by_cases hs : (alLookup (recKey hh r) m).isSome
  · simp [hs, alLookup_update, hk]
  · simp only [hs, Bool.false_eq_true, if_false]
    cases he : alLookup k m with
    | none => rw [alLookup_append_none he]; simp [alLookup, hk]
    | some e => exact alLookup_append_some he

theorem lookup_stepGraph_hit_some {k : ℤ} {r : Record} {m : List (ℤ × Entry)} {e : Entry}
    (hk : recKey hh r = k) (he : alLookup k m = some e) :
    alLookup k (stepGraph hh m r) = some (graphMergeUpd r e) := by
  unfold stepGraph
  have hs : (alLookup (recKey hh r) m).isSome = true := by
    rw [hk, he]; rfl
  simp [hs, alLookup_update, hk, he]

theorem lookup_stepGraph_hit_none {k : ℤ} {r : Record} {m : List (ℤ × Entry)}
    (hk : recKey hh r = k) (he : alLookup k m = none) :
    alLookup k (stepGraph hh m r) = some (graphOnlyEntry r) := by
  unfold stepGraph
  have hs : (alLookup (recKey hh r) m).isSome = false := by
    rw [hk, he]; rfl
  simp only [hs, Bool.false_eq_true, if_false]
  rw [alLookup_append_none he]
  simp [alLookup, hk]

theorem lookup_processSem_other {k : ℤ} {rs : List Record}
    (hk : ∀ r ∈ rs, recKey hh r ≠ k) (m : List (ℤ × Entry)) :
    alLookup k (processSemFrom hh m rs) = alLookup k m := by
  induction rs generalizing m with
  | nil => rfl
  | cons r rs ih =>
    have h1 : recKey hh r ≠ k := hk r (List.mem_cons_self r rs)
    have h2 : ∀ x ∈ rs, recKey hh x ≠ k := fun x hx => hk x (List.mem_cons_of_mem r hx)
    show alLookup k (processSemFrom hh (stepSem hh m r) rs) = alLookup k m
    rw [ih h2, lookup_stepSem_other hh h1]

theorem lookup_processSem_some {k : ℤ} {rs : List Record} {e : Entry}
    {m : List (ℤ × Entry)} (he : alLookup k m = some e) :
    alLookup k (processSemFrom hh m rs) = some e := by
  induction rs generalizing m with
  | nil => exact he
  | cons r rs ih =>
    show alLookup k (processSemFrom hh (stepSem hh m r) rs) = some e
    exact ih (lookup_stepSem_some hh he)

theorem lookup_processGraph_other {k : ℤ} {rs : List Record}
    (hk : ∀ r ∈ rs, recKey hh r ≠ k) (m : List (ℤ × Entry)) :
    alLookup k (processGraphFrom hh m rs) = alLookup k m := by
  induction rs generalizing m with
  | nil => rfl
  | cons r rs ih =>
    have h1 : recKey hh r ≠ k := hk r (List.mem_cons_self r rs)
    have h2 : ∀ x ∈ rs, recKey hh x ≠ k := fun x hx => hk x (List.mem_cons_of_mem r hx)
    show alLookup k (processGraphFrom hh (stepGraph hh m r) rs) = alLookup k m
    rw [ih h2, lookup_stepGraph_other hh h1]

theorem processSemFrom_append (m : List (ℤ × Entry)) (l1 l2 : List Record) :
    processSemFrom hh m (l1 ++ l2) = processSemFrom hh (processSemFrom hh m l1) l2 := by
  simp [processSemFrom, List.foldl_append]

theorem processSemFrom_cons (m : List (ℤ × Entry)) (r : Record) (rs : List Record) :
    processSemFrom hh m (r :: rs) = processSemFrom hh (stepSem hh m r) rs :=
  rfl

theorem processGraphFrom_append (m : List (ℤ × Entry)) (l1 l2 : List Record) :
    processGraphFrom hh m (l1 ++ l2) = processGraphFrom hh (processGraphFrom hh m l1) l2 := by
  simp [processGraphFrom, List.foldl_append]

theorem processGraphFrom_cons (m : List (ℤ × Entry)) (r : Record) (rs : List Record) :
    processGraphFrom hh m (r :: rs) = processGraphFrom hh (stepGraph hh m r) rs :=
  rfl

theorem lookup_processSem_split {k : ℤ} {r : Record} {pre post : List Record}
    (hpre : ∀ x ∈ pre, recKey hh x ≠ k) (hpost : ∀ x ∈ post, recKey hh x ≠ k)
    (hk : recKey hh r = k) {m : List (ℤ × Entry)} (he : alLookup k m = none) :
    alLookup k (processSemFrom hh m (pre ++ r :: post)) = some (semEntry r) := by
  rw [processSemFrom_append, processSemFrom_cons]
  have h1 : alLookup k (processSemFrom hh m pre) = none := by
    rw [lookup_processSem_other hh hpre m, he]
  have h2 : alLookup k (stepSem hh (processSemFrom hh m pre) r) = some (semEntry r) :=
    lookup_stepSem_hit_none hh hk h1
  exact lookup_processSem_some hh h2

theorem lookup_processGraph_split_some {k : ℤ} {g : Record} {pre post : List Record}
    (hpre : ∀ x ∈ pre, recKey hh x ≠ k) (hpost : ∀ x ∈ post, recKey hh x ≠ k)
    (hk : recKey hh g = k) {m : List (ℤ × Entry)} {e : Entry}
    (he : alLookup k m = some e) :
    alLookup k (processGraphFrom hh m (pre ++ g :: post)) = some (graphMergeUpd g e) := by
  rw [processGraphFrom_append, processGraphFrom_cons]
  have h1 : alLookup k (processGraphFrom hh m pre) = some e := by
    rw [lookup_processGraph_other hh hpre m, he]
  have h2 := lookup_stepGraph_hit_some hh hk h1
  rw [lookup_processGraph_other hh hpost _, h2]

theorem lookup_processGraph_split_none {k : ℤ} {g : Record} {pre post : List Record}
    (hpre : ∀ x ∈ pre, recKey hh x ≠ k) (hpost : ∀ x ∈ post, recKey hh x ≠ k)
    (hk : recKey hh g = k) {m : List (ℤ × Entry)}
    (he : alLookup k m = none) :
    alLookup k (processGraphFrom hh m (pre ++ g :: post)) = some (graphOnlyEntry g) := by
  rw [processGraphFrom_append, processGraphFrom_cons]
  have h1 : alLookup k (processGraphFrom hh m pre) = none := by
    rw [lookup_processGraph_other hh hpre m, he]
  have h2 := lookup_stepGraph_hit_none hh hk h1
  rw [lookup_processGraph_other hh hpost _, h2]

end AssocLemmas

/-- Hash injectivity on the occurring contents turns content
inequality into key inequality. -/
theorem keys_ne_of_content_ne {hh : String → ℤ} {all : List String}
    (hinj : ∀ c1 ∈ all, ∀ c2 ∈ all, hh c1 = hh c2 → c1 = c2)
    {c1 c2 : String} (h1 : c1 ∈ all) (h2 : c2 ∈ all) (hne : c1 ≠ c2) :
    hh c1 ≠ hh c2 :=
  fun h => hne (hinj c1 h1 c2 h2 h)

/-- Split a list with pairwise-distinct contents around a member: the
surrounding elements all have different content. -/
theorem content_split {l : List Record} {r : Record} (hr : r ∈ l)
    (hnd : (l.map (fun x => x.content)).Nodup) :
    ∃ pre post, l = pre ++ r :: post
      ∧ (∀ x ∈ pre, x.content ≠ r.content)
      ∧ (∀ x ∈ post, x.content ≠ r.content) := by
  obtain ⟨pre, post, rfl⟩ := List.append_of_mem hr
  rw [List.map_append, List.map_cons] at hnd
  rcases List.nodup_append.mp hnd with ⟨-, hcons, hdisj⟩
  refine ⟨pre, post, rfl, ?_, ?_⟩
  · intro x hx hc
    exact hdisj (List.mem_map_of_mem _ hx) (by rw [hc]; exact List.mem_cons_self _ _)
  · intro x hx hc
    exact (List.nodup_cons.mp hcons).1 (by rw [← hc]; exact List.mem_map_of_mem _ hx)

/-- C1: with a collision-free content hash and within-source distinct
contents, the hybrid score of every merged-map entry is determined by
its source case — a semantic-only record scores `semantic_score·0.6`;
a record returned by both adapters scores
`semantic_score·0.6 + graph_score·0.4` and carries `path_length` and
`custody_events` from the graph contribution; a graph-only record
scores `graph_score·0.4 + 0.3`. -/
theorem c1_merge_case_scores (hh : String → ℤ) (sems graphs : List Record)
    (hinj : ∀ c1 ∈ (sems ++ graphs).map (fun r => r.content),
            ∀ c2 ∈ (sems ++ graphs).map (fun r => r.content), hh c1 = hh c2 → c1 = c2)
    (hndS : (sems.map (fun r => r.content)).Nodup)
    (hndG : (graphs.map (fun r => r.content)).Nodup) :
    (∀ r ∈ sems, (∀ g ∈ graphs, g.content ≠ r.content) →
      ∃ e, alLookup (hh r.content) (resultMap hh sems graphs) = some e
        ∧ e.hybrid_score = r.semantic_score.getD (1/2) * (3/5))
    ∧ (∀ r ∈ sems, ∀ g ∈ graphs, g.content = r.content →
      ∃ e, alLookup (hh r.content) (resultMap hh sems graphs) = some e
        ∧ e.hybrid_score = r.semantic_score.getD (1/2) * (3/5)
            + g.graph_score.getD (1/2) * (2/5)
        ∧ e.path_length = g.path_length
        ∧ e.custody_events = some (g.custody_events.getD 0))
    ∧ (∀ g ∈ graphs, (∀ r ∈ sems, r.content ≠ g.content) →
      ∃ e, alLookup (hh g.content) (resultMap hh sems graphs) = some e
        ∧ e.hybrid_score = g.graph_score.getD (1/2) * (2/5) + 3/10) := by
  have hmemS : ∀ x ∈ sems, x.content ∈ (sems ++ graphs).map (fun r => r.content) :=
    fun x hx => List.mem_map_of_mem _ (List.mem_append_left _ hx)
  have hmemG : ∀ x ∈ graphs, x.content ∈ (sems ++ graphs).map (fun r => r.content) :=
    fun x hx => List.mem_map_of_mem _ (List.mem_append_right _ hx)
  have semLookup : ∀ r ∈ sems,
      alLookup (hh r.content) (processSemFrom hh [] sems) = some (semEntry r) := by
    intro r hr
    obtain ⟨pre, post, hsp, hpreC, hpostC⟩ := content_split hr hndS
    have hmem : ∀ x ∈ pre, x ∈ sems := by
      intro x hx; rw [hsp]; exact List.mem_append_left _ hx
    have hmem2 : ∀ x ∈ post, x ∈ sems := by
      intro x hx; rw [hsp]; exact List.mem_append_right _ (List.mem_cons_of_mem _ hx)
    have hpre : ∀ x ∈ pre, recKey hh x ≠ hh r.content := fun x hx =>
      keys_ne_of_content_ne hinj (hmemS x (hmem x hx)) (hmemS r hr) (hpreC x hx)
    have hpost : ∀ x ∈ post, recKey hh x ≠ hh r.content := fun x hx =>
      keys_ne_of_content_ne hinj (hmemS x (hmem2 x hx)) (hmemS r hr) (hpostC x hx)
    rw [hsp]
    exact lookup_processSem_split hh hpre hpost rfl rfl
  refine ⟨?_, ?_, ?_⟩
  · intro r hr hno
    have hG : ∀ g ∈ graphs, recKey hh g ≠ hh r.content := fun g hg =>
      keys_ne_of_content_ne hinj (hmemG g hg) (hmemS r hr) (hno g hg)
    refine ⟨semEntry r, ?_, rfl⟩
    unfold resultMap
    rw [lookup_processGraph_other hh hG _, semLookup r hr]
  · intro r hr g hg hgc
    obtain ⟨gpre, gpost, hgp, hpreC, hpostC⟩ := content_split hg hndG
    have hmem : ∀ x ∈ gpre, x ∈ graphs := by
      intro x hx; rw [hgp]; exact List.mem_append_left _ hx
    have hmem2 : ∀ x ∈ gpost, x ∈ graphs := by
      intro x hx; rw [hgp]; exact List.mem_append_right _ (List.mem_cons_of_mem _ hx)
    have hkg : recKey hh g = hh r.content := by
      unfold recKey; rw [hgc]
    have hpre : ∀ x ∈ gpre, recKey hh x ≠ hh r.content := by
      intro x hx
      have h1 : x.content ≠ g.content := hpreC x hx
      have h2 := keys_ne_of_content_ne hinj (hmemG x (hmem x hx)) (hmemG g hg) h1
      unfold recKey at h2 ⊢
      rw [← hgc]; exact h2
    have hpost : ∀ x ∈ gpost, recKey hh x ≠ hh r.content := by
      intro x hx
      have h1 : x.content ≠ g.content := hpostC x hx
      have h2 := keys_ne_of_content_ne hinj (hmemG x (hmem2 x hx)) (hmemG g hg) h1
      unfold recKey at h2 ⊢
      rw [← hgc]; exact h2
    refine ⟨graphMergeUpd g (semEntry r), ?_, rfl, rfl, rfl⟩
    unfold resultMap
    rw [hgp]
    exact lookup_processGraph_split_some hh hpre hpost hkg (semLookup r hr)
  · intro g hg hno
    obtain ⟨gpre, gpost, hgp, hpreC, hpostC⟩ := content_split hg hndG
    have hmem : ∀ x ∈ gpre, x ∈ graphs := by
      intro x hx; rw [hgp]; exact List.mem_append_left _ hx
    have hmem2 : ∀ x ∈ gpost, x ∈ graphs := by
      intro x hx; rw [hgp]; exact List.mem_append_right _ (List.mem_cons_of_mem _ hx)
    have hpre : ∀ x ∈ gpre, recKey hh x ≠ hh g.content := fun x hx =>
      keys_ne_of_content_ne hinj (hmemG x (hmem x hx)) (hmemG g hg) (hpreC x hx)
    have hpost : ∀ x ∈ gpost, recKey hh x ≠ hh g.content := fun x hx =>
      keys_ne_of_content_ne hinj (hmemG x (hmem2 x hx)) (hmemG g hg) (hpostC x hx)
    have hS : ∀ x ∈ sems, recKey hh x ≠ hh g.content := fun x hx =>
      keys_ne_of_content_ne hinj (hmemS x hx) (hmemG g hg) (hno x hx)
    have hsem : alLookup (hh g.content) (processSemFrom hh [] sems) = none := by
      rw [lookup_processSem_other hh hS _]; rfl
    refine ⟨graphOnlyEntry g, ?_, rfl⟩
    unfold resultMap
    rw [hgp]
    exact lookup_processGraph_split_none hh hpre hpost rfl hsem

/-- Witness for C1 on one semantic record "A" and one graph record
"B" under a separating hash. -/
theorem c1_merge_case_scores_w :
    (∀ c1 ∈ (semsW ++ graphsW).map (fun r => r.content),
      ∀ c2 ∈ (semsW ++ graphsW).map (fun r => r.content),
        hashAB c1 = hashAB c2 → c1 = c2)
    ∧ (semsW.map (fun r => r.content)).Nodup
    ∧ (graphsW.map (fun r => r.content)).Nodup
    ∧ ((∀ r ∈ semsW, (∀ g ∈ graphsW, g.content ≠ r.content) →
        ∃ e, alLookup (hashAB r.content) (resultMap hashAB semsW graphsW) = some e
          ∧ e.hybrid_score = r.semantic_score.getD (1/2) * (3/5))
      ∧ (∀ r ∈ semsW, ∀ g ∈ graphsW, g.content = r.content →
        ∃ e, alLookup (hashAB r.content) (resultMap hashAB semsW graphsW) = some e
          ∧ e.hybrid_score = r.semantic_score.getD (1/2) * (3/5)
              + g.graph_score.getD (1/2) * (2/5)
          ∧ e.path_length = g.path_length
          ∧ e.custody_events = some (g.custody_events.getD 0))
      ∧ (∀ g ∈ graphsW, (∀ r ∈ semsW, r.content ≠ g.content) →
        ∃ e, alLookup (hashAB g.content) (resultMap hashAB semsW graphsW) = some e
          ∧ e.hybrid_score = g.graph_score.getD (1/2) * (2/5) + 3/10)) :=
  ⟨by decide, by decide, by decide,
    c1_merge_case_scores hashAB semsW graphsW (by decide) (by decide) (by decide)⟩

section SortLemmas

theorem mem_insertD {x y : Entry} : ∀ {l : List Entry}, y ∈ insertD x l ↔ y = x ∨ y ∈ l := by
  intro l
  induction l with
  | nil => simp [insertD]
  | cons z zs ih =>
    by_cases hc : z.hybrid_score ≤ x.hybrid_score
    · simp [insertD, hc]
    · simp only [insertD, hc, if_false, List.mem_cons, ih]
      tauto

theorem pairwise_insertD (x : Entry) {l : List Entry}
    (h : l.Pairwise (fun a b => b.hybrid_score ≤ a.hybrid_score)) :
    (insertD x l).Pairwise (fun a b => b.hybrid_score ≤ a.hybrid_score) := by
  induction l with
  | nil => simp [insertD]
  | cons y ys ih =>
    rcases List.pairwise_cons.mp h with ⟨hy, hys⟩
    by_cases hc : y.hybrid_score ≤ x.hybrid_score
    · rw [insertD, if_pos hc]
      refine List.pairwise_cons.mpr ⟨?_, h⟩
      intro z hz
      rcases List.mem_cons.mp hz with hz1 | hz2
      · rw [hz1]; exact hc
      · exact le_trans (hy z hz2) hc
    · rw [insertD, if_neg hc]
      refine List.pairwise_cons.mpr ⟨?_, ih hys⟩
      intro z hz
      rcases mem_insertD.mp hz with hz1 | hz2
      · rw [hz1]; exact le_of_lt (lt_of_not_le hc)
      · exact hy z hz2

theorem sortDesc_pairwise (l : List Entry) :
    (sortDesc l).Pairwise (fun a b => b.hybrid_score ≤ a.hybrid_score) := by
  induction l with
  | nil => simp [sortDesc]
  | cons x l ih => exact pairwise_insertD x ih

theorem filter_insertD (s : ℚ) (x : Entry) (l : List Entry) :
    (insertD x l).filter (fun e => decide (e.hybrid_score = s))
      = if x.hybrid_score = s then x :: l.filter (fun e => decide (e.hybrid_score = s))
        else l.filter (fun e => decide (e.hybrid_score = s)) := by
  induction l with
  | nil =>
    by_cases hx : x.hybrid_score = s <;> simp [insertD, List.filter, hx]
  | cons y ys ih =>
    by_cases hc : y.hybrid_score ≤ x.hybrid_score
    · rw [insertD, if_pos hc]
      by_cases hx : x.hybrid_score = s <;> simp [List.filter_cons, hx]
    · rw [insertD, if_neg hc]
      by_cases hx : x.hybrid_score = s
      · have hy : ¬ y.hybrid_score = s := by
          intro h
          exact hc (by rw [h, hx])
        simp [List.filter_cons, hx, hy, ih]
      · by_cases hy : y.hybrid_score = s <;> simp [List.filter_cons, hx, hy, ih]

theorem sortDesc_filter (s : ℚ) (l : List Entry) :
    (sortDesc l).filter (fun e => decide (e.hybrid_score = s))
      = l.filter (fun e => decide (e.hybrid_score = s)) := by
  induction l with
  | nil => rfl
  | cons x l ih =>
    show (insertD x (sortDesc l)).filter _ = _
    rw [filter_insertD]
    by_cases hx : x.hybrid_score = s <;> simp [List.filter_cons, hx, ih]

theorem length_insertD (x : Entry) (l : List Entry) :
    (insertD x l).length = l.length + 1 := by
  induction l with
  | nil => rfl
  | cons y ys ih =>
    by_cases hc : y.hybrid_score ≤ x.hybrid_score <;> simp [insertD, hc, ih]

theorem length_sortDesc (l : List Entry) : (sortDesc l).length = l.length := by
  induction l with
  | nil => rfl
  | cons x l ih =>
    show (insertD x (sortDesc l)).length = l.length + 1
    rw [length_insertD, ih]

end SortLemmas

/-- The graph pass only updates entries in place or appends: the keys
laid down by the semantic pass stay, in order, at the front of the
merged map. -/
theorem keys_processGraphFrom (hh : String → ℤ) (gs : List Record) :
    ∀ m, ∃ tail, (processGraphFrom hh m gs).map Prod.fst = m.map Prod.fst ++ tail := by
  induction gs with
  | nil => intro m; exact ⟨[], by simp [processGraphFrom]⟩
  | cons g gs ih =>
    intro m
    obtain ⟨t, ht⟩ := ih (stepGraph hh m g)
    by_cases hs : (alLookup (recKey hh g) m).isSome
    · refine ⟨t, ?_⟩
      rw [processGraphFrom_cons, ht]
      unfold stepGraph
      rw [if_pos hs, keys_alUpdate]
    · refine ⟨recKey hh g :: t, ?_⟩
      rw [processGraphFrom_cons, ht]
      unfold stepGraph
      rw [if_neg hs]
      simp

/-- C2: for every pair of backend result sets and nonnegative limit,
the hybrid result list is non-increasing in `hybrid_score`; the sort is
stable (every equal-score band keeps the merged map's insertion order),
the semantic-pass keys lead the merged map so semantic-discovered
entries precede graph-discovered ones among ties; and the list is
truncated to at most `limit` entries. -/
theorem c2_sorted_stable_truncated (hh : String → ℤ) (sems graphs : List Record)
    (limit : ℤ) (hl : 0 ≤ limit) :
    (hybridResults hh sems graphs limit).Pairwise
        (fun a b => b.hybrid_score ≤ a.hybrid_score)
    ∧ (∀ s : ℚ, (sortDesc (mergedValues hh sems graphs)).filter
          (fun e => decide (e.hybrid_score = s))
        = (mergedValues hh sems graphs).filter (fun e => decide (e.hybrid_score = s)))
    ∧ (∃ tail, (resultMap hh sems graphs).map Prod.fst
        = (processSemFrom hh [] sems).map Prod.fst ++ tail)
    ∧ (hybridResults hh sems graphs limit).length ≤ limit.toNat := by
  refine ⟨?_, fun s => sortDesc_filter s _, keys_processGraphFrom hh graphs _, ?_⟩
  · unfold hybridResults pySlice
    rw [if_pos hl]
    exact (sortDesc_pairwise (mergedValues hh sems graphs)).sublist
      (List.take_sublist _ _)
  · unfold hybridResults pySlice
    rw [if_pos hl]
    exact List.length_take_le _ _

/-- Witness for C2 with limit 10 on the concrete one-record inputs. -/
theorem c2_sorted_stable_truncated_w :
    (0 : ℤ) ≤ 10
    ∧ ((hybridResults hashAB semsW graphsW 10).Pairwise
          (fun a b => b.hybrid_score ≤ a.hybrid_score)
      ∧ (∀ s : ℚ, (sortDesc (mergedValues hashAB semsW graphsW)).filter
            (fun e => decide (e.hybrid_score = s))
          = (mergedValues hashAB semsW graphsW).filter
              (fun e => decide (e.hybrid_score = s)))
      ∧ (∃ tail, (resultMap hashAB semsW graphsW).map Prod.fst
          = (processSemFrom hashAB [] semsW).map Prod.fst ++ tail)
      ∧ (hybridResults hashAB semsW graphsW 10).length ≤ (10 : ℤ).toNat) :=
  ⟨by decide, c2_sorted_stable_truncated hashAB semsW graphsW 10 (by decide)⟩

section KeysLemmas

variable (hh : String → ℤ)

theorem keys_nodup_stepSem {m : List (ℤ × Entry)} (r : Record)
    (h : (m.map Prod.fst).Nodup) : ((stepSem hh m r).map Prod.fst).Nodup := by
  unfold stepSem
  by_cases hs : (alLookup (recKey hh r) m).isSome
  · rw [if_pos hs]; exact h
  · rw [if_neg hs]
    have hk : recKey hh r ∉ m.map Prod.fst := by
      rw [← alLookup_eq_none_iff]
      exact Option.not_isSome_iff_eq_none.mp hs
    simp [List.nodup_append, h, hk]

theorem keys_nodup_stepGraph {m : List (ℤ × Entry)} (r : Record)
    (h : (m.map Prod.fst).Nodup) : ((stepGraph hh m r).map Prod.fst).Nodup := by
  unfold stepGraph
  by_cases hs : (alLookup (recKey hh r) m).isSome
  · rw [if_pos hs, keys_alUpdate]; exact h
  · rw [if_neg hs]
    have hk : recKey hh r ∉ m.map Prod.fst := by
      rw [← alLookup_eq_none_iff]
      exact Option.not_isSome_iff_eq_none.mp hs
    simp [List.nodup_append, h, hk]

theorem keys_nodup_processSem (rs : List Record) :
    ∀ {m : List (ℤ × Entry)}, (m.map Prod.fst).Nodup →
      ((processSemFrom hh m rs).map Prod.fst).Nodup := by
  induction rs with
  | nil => intro m h; exact h
  | cons r rs ih =>
    intro m h
    rw [processSemFrom_cons]
    exact ih (keys_nodup_stepSem hh r h)

theorem keys_nodup_processGraph (rs : List Record) :
    ∀ {m : List (ℤ × Entry)}, (m.map Prod.fst).Nodup →
      ((processGraphFrom hh m rs).map Prod.fst).Nodup := by
  induction rs with
  | nil => intro m h; exact h
  | cons r rs ih =>
    intro m h
    rw [processGraphFrom_cons]
    exact ih (keys_nodup_stepGraph hh r h)

theorem keys_mem_stepSem (m : List (ℤ × Entry)) (r : Record) (k : ℤ) :
    k ∈ (stepSem hh m r).map Prod.fst ↔ k ∈ m.map Prod.fst ∨ recKey hh r = k := by
  unfold stepSem
  by_cases hs : (alLookup (recKey hh r) m).isSome
  · rw [if_pos hs]
    constructor
    · exact Or.inl
    · rintro (h | h)
      · exact h
      · rw [← h]; exact (alLookup_isSome_iff _ _).mp hs
  · rw [if_neg hs]
    simp [eq_comm]

theorem keys_mem_stepGraph (m : List (ℤ × Entry)) (r : Record) (k : ℤ) :
    k ∈ (stepGraph hh m r).map Prod.fst ↔ k ∈ m.map Prod.fst ∨ recKey hh r = k := by
  unfold stepGraph
  by_cases hs : (alLookup (recKey hh r) m).isSome
  · rw [if_pos hs, keys_alUpdate]
    constructor
    · exact Or.inl
    · rintro (h | h)
      · exact h
      · rw [← h]; exact (alLookup_isSome_iff _ _).mp hs
  · rw [if_neg hs]
    simp [eq_comm]

theorem keys_mem_processSem (rs : List Record) :
    ∀ (m : List (ℤ × Entry)) (k : ℤ),
      k ∈ (processSemFrom hh m rs).map Prod.fst
        ↔ k ∈ m.map Prod.fst ∨ ∃ r ∈ rs, recKey hh r = k := by
  induction rs with
  | nil => intro m k; simp [processSemFrom]
  | cons r rs ih =>
    intro m k
    rw [processSemFrom_cons, ih, keys_mem_stepSem]
    simp only [List.mem_cons]
    constructor
    · rintro ((h | h) | ⟨x, hx, hk⟩)
      · exact Or.inl h
      · exact Or.inr ⟨r, Or.inl rfl, h⟩
      · exact Or.inr ⟨x, Or.inr hx, hk⟩
    · rintro (h | ⟨x, hx | hx, hk⟩)
      · exact Or.inl (Or.inl h)
      · exact Or.inl (Or.inr (hx ▸ hk))
      · exact Or.inr ⟨x, hx, hk⟩

theorem keys_mem_processGraph (rs : List Record) :
    ∀ (m : List (ℤ × Entry)) (k : ℤ),
      k ∈ (processGraphFrom hh m rs).map Prod.fst
        ↔ k ∈ m.map Prod.fst ∨ ∃ r ∈ rs, recKey hh r = k := by
  induction rs with
  | nil => intro m k; simp [processGraphFrom]
  | cons r rs ih =>
    intro m k
    rw [processGraphFrom_cons, ih, keys_mem_stepGraph]
    simp only [List.mem_cons]
    constructor
    · rintro ((h | h) | ⟨x, hx, hk⟩)
      · exact Or.inl h
      · exact Or.inr ⟨r, Or.inl rfl, h⟩
      · exact Or.inr ⟨x, Or.inr hx, hk⟩
    · rintro (h | ⟨x, hx | hx, hk⟩)
      · exact Or.inl (Or.inl h)
      · exact Or.inl (Or.inr (hx ▸ hk))
      · exact Or.inr ⟨x, hx, hk⟩

/-- Key-set of the merged map: exactly the hashes of the occurring
contents. -/
theorem keys_mem_resultMap (sems graphs : List Record) (k : ℤ) :
    k ∈ (resultMap hh sems graphs).map Prod.fst
      ↔ ∃ r ∈ sems ++ graphs, recKey hh r = k := by
  unfold resultMap
  rw [keys_mem_processGraph, keys_mem_processSem]
  simp only [List.map_nil, List.not_mem_nil, false_or, List.mem_append]
  constructor
  · rintro (⟨x, hx, hk⟩ | ⟨x, hx, hk⟩)
    · exact ⟨x, Or.inl hx, hk⟩
    · exact ⟨x, Or.inr hx, hk⟩
  · rintro ⟨x, hx | hx, hk⟩
    · exact Or.inl ⟨x, hx, hk⟩
    · exact Or.inr ⟨x, hx, hk⟩

end KeysLemmas

/-- C6 counterexample: under a colliding process hash, one semantic
record with content "A" and one graph record with the distinct content
"B" are merged into a single entry (the map has one key and the graph
signal is folded into the semantic entry), so byte-exact content
equality is not the identity relation the code uses. -/
theorem c6_cex :
    (resultMap hashConst [mkRec "A"] [mkRec "B"]).length = 1
    ∧ (mkRec "A").content ≠ (mkRec "B").content
    ∧ ((resultMap hashConst [mkRec "A"] [mkRec "B"]).map
        (fun p => p.2.signals.semantic.isSome && p.2.signals.graph.isSome)) = [true] := by
  refine ⟨rfl, by decide, rfl⟩

/-- C6 (amended): deduplication keys on the process string hash of
`content`.  Byte-identical contents always collapse into a single map
entry (keys are unique and every record's key is present), and when the
hash is collision-free on the occurring contents — the generic
situation, but not a property Python's randomized `hash` guarantees —
the number of merged entries is exactly the number of distinct
contents, i.e. identity is byte-exact content equality with no trimming
or case-folding. -/
theorem c6_amended (hh : String → ℤ) (sems graphs : List Record)
    (hinj : ∀ c1 ∈ (sems ++ graphs).map (fun r => r.content),
            ∀ c2 ∈ (sems ++ graphs).map (fun r => r.content), hh c1 = hh c2 → c1 = c2) :
    ((resultMap hh sems graphs).map Prod.fst).Nodup
    ∧ (∀ r ∈ sems ++ graphs, recKey hh r ∈ (resultMap hh sems graphs).map Prod.fst)
    ∧ (resultMap hh sems graphs).length
        = ((sems ++ graphs).map (fun r => r.content)).toFinset.card := by
  have hnd : ((resultMap hh sems graphs).map Prod.fst).Nodup := by
    unfold resultMap
    exact keys_nodup_processGraph hh graphs
      (keys_nodup_processSem hh sems (by simp))
  refine ⟨hnd, ?_, ?_⟩
  · intro r hr
    exact (keys_mem_resultMap hh sems graphs _).mpr ⟨r, hr, rfl⟩
  · have h1 : (resultMap hh sems graphs).length
        = ((resultMap hh sems graphs).map Prod.fst).length :=
      (List.length_map _ _).symm
    have h2 : ((resultMap hh sems graphs).map Prod.fst).toFinset.card
        = ((resultMap hh sems graphs).map Prod.fst).length :=
      List.toFinset_card_of_nodup hnd
    have hset : ((resultMap hh sems graphs).map Prod.fst).toFinset
        = (((sems ++ graphs).map (fun r => r.content)).map hh).toFinset := by
      apply Finset.ext
      intro k
      rw [List.mem_toFinset, List.mem_toFinset, keys_mem_resultMap, List.map_map,
        List.mem_map]
      constructor
      · rintro ⟨r, hr, hk⟩
        exact ⟨r, hr, hk⟩
      · rintro ⟨r, hr, hk⟩
        exact ⟨r, hr, hk⟩
    have hinj2 : Set.InjOn hh
        (((sems ++ graphs).map (fun r => r.content)).toFinset : Set String) := by
      intro a ha b hb hab
      rw [Finset.mem_coe, List.mem_toFinset] at ha hb
      exact hinj a ha b hb hab
    have hmapset : (((sems ++ graphs).map (fun r => r.content)).map hh).toFinset
        = ((sems ++ graphs).map (fun r => r.content)).toFinset.image hh := by
      apply Finset.ext
      intro x
      simp only [List.mem_toFinset, List.mem_map, Finset.mem_image]
    rw [h1, ← h2, hset, hmapset, Finset.card_image_of_injOn hinj2]

/-- Witness for C6 (amended) on the concrete separating hash. -/
theorem c6_amended_w :
    (∀ c1 ∈ (semsW ++ graphsW).map (fun r => r.content),
      ∀ c2 ∈ (semsW ++ graphsW).map (fun r => r.content),
        hashAB c1 = hashAB c2 → c1 = c2)
    ∧ (((resultMap hashAB semsW graphsW).map Prod.fst).Nodup
      ∧ (∀ r ∈ semsW ++ graphsW,
          recKey hashAB r ∈ (resultMap hashAB semsW graphsW).map Prod.fst)
      ∧ (resultMap hashAB semsW graphsW).length
          = ((semsW ++ graphsW).map (fun r => r.content)).toFinset.card) :=
  ⟨by decide, c6_amended hashAB semsW graphsW (by decide)⟩

/-- Witness for C10 on a concrete row lacking a path length. -/
theorem c10_default_path_w :
    rowN ∈ [rowN] ∧ rowN.path_length = none
    ∧ (graphRowToRec rowN ∈ graph_search true none 3 [rowN]
      ∧ (graphRowToRec rowN).path_length = some 1
      ∧ (graphRowToRec rowN).graph_score
          = some ((1 : ℚ) / 2 + (if rowN.custody ≠ 0 then 1/5 else 0))) :=
  ⟨by decide, by decide, c10_default_path [rowN] rowN (by decide) (by decide)⟩

end GraphRag
